import Mathlib

/-!
Shallow embedding of the spatial tessellation engine of the TRamWAy
repository (files tramway/tesselation/base.py and
inferencemap/tesselation/kdtree.py), together with theorems settling the
specification claims about it.

Coordinates are modelled as rationals.  Machine floating point is only used
by the source on small integer values or as a monotone final square root, so
the exact rational model coincides with the float computation wherever a
theorem below refers to it; each such place is noted in a comment.

The coordinate scaler (tramway/spatial/scaler.py) is not part of the source
tree given here and the specification treats it as an external collaborator
whose scale and unscale maps are inverse coordinate transformations; it is
modelled as the identity map throughout.
-/

namespace TramwaySpec

/-! ## Generic list helpers (numpy-style primitives) -/

/-- Insert a value into a sorted list, keeping it sorted (used to model the
sorting performed by numpy unique). -/
def insSorted [LinearOrder α] (x : α) : List α → List α
  | [] => [x]
  | y :: ys => if x ≤ y then x :: y :: ys else y :: insSorted x ys

/-- Insertion sort (ascending). -/
def sortList [LinearOrder α] (l : List α) : List α := l.foldr insSorted []

/-- Model of numpy unique: the sorted list of distinct values. -/
def np_unique [LinearOrder α] [DecidableEq α] (l : List α) : List α :=
  sortList l.dedup

/-- Model of a numpy assignment A[v] = x with a possibly negative index v:
a negative index counts from the end of the array, as in numpy and Python. -/
def np_set_int (A : List ℕ) (v : ℤ) (x : ℕ) : List ℕ :=
  if 0 ≤ v then A.set v.toNat x else A.set (A.length - (-v).toNat) x

/-! ## CellStats.location_count (tramway/tesselation/base.py, lines 128-145)

The partition may be a dense array (one cell index per point, -1 when the
point is unassigned), a pair of arrays (point indices, cell indices), or a
sparse point-by-cell matrix. -/

/-- The array branch of CellStats.location_count: numpy unique with counts
over the dense cell-index array, then the fancy-index assignment
location_count[valid_cell_centers] = counts into a zero vector of length
ncells.  A sentinel value -1 among the unique values addresses the last
entry of the vector, exactly as numpy resolves a negative index. -/
def location_count_array (K : List ℤ) (ncells : ℕ) : List ℕ :=
  (np_unique K).foldl (fun acc v => np_set_int acc v (K.count v))
    (List.replicate ncells 0)

/-- The cell indices associated to point p in a pair-of-arrays partition
(the nonzero columns of row p of the implied sparse matrix). -/
def pairs_for (pts : List ℕ) (cls : List ℤ) (p : ℕ) : List ℤ :=
  (pts.zip cls).filterMap (fun pc => if pc.1 = p then some pc.2 else none)

/-- The pair branch of CellStats.location_count: the source builds a CSR
matrix with rows indexed by points and columns by cells and returns the
row-pointer differences, i.e. the number of distinct cells of each point
(one entry per point, not per cell). -/
def location_count_pair (pts : List ℕ) (cls : List ℤ) (npoints : ℕ) : List ℕ :=
  (List.range npoints).map (fun p => (pairs_for pts cls p).dedup.length)

/-- The matrix branch of CellStats.location_count: column-pointer
differences of the CSC form, i.e. the number of stored entries per cell.
The matrix is modelled by its list of (row, column) entries. -/
def location_count_matrix (entries : List (ℕ × ℕ)) (ncells : ℕ) : List ℕ :=
  (List.range ncells).map (fun c => entries.countP (fun e => e.2 = c))

/-- Number of assigned (non-sentinel) points of a dense-array partition. -/
def assigned_count (K : List ℤ) : ℕ := K.countP (fun v => v ≠ -1)

/-! ## CellStats cache invalidation (tramway/tesselation/base.py, lines 94-165)

The Lazy base class of CellStats lives in tramway/core, outside the given
source tree.  Modelled from the spec: its lazy setter stores the given value
in the private backing field (storing None invalidates the cached value). -/

/-- Observable state of a CellStats container: the point set, the
tessellation (an opaque identifier here), and the three cached derived
fields. -/
structure CellStatsState where
  points : List (List ℚ)
  tess : ℕ
  cell_index_cache : Option (List ℤ)
  location_count_cache : Option (List ℕ)
  bounding_box_cache : Option (List ℚ × List ℚ)
  deriving DecidableEq

/-- The cell_index setter: stores the new partition and invalidates the
cached location counts. -/
def set_cell_index (s : CellStatsState) (k : Option (List ℤ)) : CellStatsState :=
  { s with cell_index_cache := k, location_count_cache := none }

/-- The points setter: stores the new point set, then assigns None to
cell_index (which also clears location_count) and to bounding_box. -/
def set_points (s : CellStatsState) (p : List (List ℚ)) : CellStatsState :=
  { set_cell_index { s with points := p } none with bounding_box_cache := none }

/-- The tesselation setter: stores the new tessellation and assigns None to
cell_index (which also clears location_count).  The bounding box cache is
not touched. -/
def set_tesselation (s : CellStatsState) (t : ℕ) : CellStatsState :=
  set_cell_index { s with tess := t } none

/-- Componentwise minimum over the rows of a point set
(numpy min over axis 0). -/
def column_min (rows : List (List ℚ)) : List ℚ :=
  match rows with
  | [] => []
  | r :: rs => rs.foldl (fun acc row => List.zipWith min acc row) r

/-- Componentwise maximum over the rows of a point set
(numpy max over axis 0). -/
def column_max (rows : List (List ℚ)) : List ℚ :=
  match rows with
  | [] => []
  | r :: rs => rs.foldl (fun acc row => List.zipWith max acc row) r

/-- The bounding box derived by CellStats from its point set. -/
def bounding_box_of (rows : List (List ℚ)) : List ℚ × List ℚ :=
  (column_min rows, column_max rows)

/-- The bounding box cache, when filled, holds the box computed from the
current point set. -/
def bb_consistent (s : CellStatsState) : Prop :=
  ∀ bb, s.bounding_box_cache = some bb → bb = bounding_box_of s.points

/-! ## Tesselation preprocessing and Delaunay.tesselate
(tramway/tesselation/base.py, lines 372-388 and 530-531) -/

/-- Input to tesselate: a plain coordinate array (columns = none) or a
structured dataframe carrying column names. -/
structure PointsInput where
  columns : Option (List String)
  rows : List (List ℚ)

/-- Tesselation preprocessing on a fresh instance: for structured input the
euclidean columns x and y must be present (z is optional), otherwise an
AttributeError is raised; plain arrays always pass.  The scaler (modelled as
the identity) then returns the coordinates unchanged.
Delaunay.tesselate stores this result directly as the cell centers and
performs no further validation. -/
def delaunay_tesselate (pts : PointsInput) : Except String (List (List ℚ)) :=
  match pts.columns with
  | some cols =>
      if "x" ∈ cols ∧ "y" ∈ cols then .ok pts.rows
      else .error "missing x or y in input dataframe"
  | none => .ok pts.rows

/-! ## format_cell_index (tramway/tesselation/base.py, lines 169-231) -/

/-- The three interchangeable partition encodings.  The matrix is modelled
by its entry list together with its shape; the coo, csr and csc variants of
the source hold the same entries, so a single constructor represents all
sparse-matrix formats. -/
inductive CellIndexEnc where
  | array (K : List ℤ)
  | pair (pts : List ℕ) (cls : List ℤ)
  | matrix (entries : List (ℕ × ℕ)) (shape : ℕ × ℕ)
  deriving DecidableEq

/-- The target formats accepted by format_cell_index (matrix, coo, csr and
csc all produce the sparse-matrix encoding). -/
inductive IndexFormat where
  | unset | array | pair | matrix | coo | csr | csc
  deriving DecidableEq

/-- True when the format is one of the sparse-matrix family. -/
def IndexFormat.isMatrixFamily : IndexFormat → Bool
  | .matrix | .coo | .csr | .csc => true
  | _ => false

/-- The pair-to-array collapse of format_cell_index: start from a vector of
-1 of length nPoints and, for each distinct point index p (numpy unique,
ascending), write the single associated cell index, or the value chosen by
the select tie-break when p is associated to several cells. -/
def pair_to_array (pts : List ℕ) (cls : List ℤ) (nPoints : ℕ)
    (select : ℕ → List ℤ → ℤ) : List ℤ :=
  (np_unique pts).foldl
    (fun K p =>
      let cs := pairs_for pts cls p
      if 1 < cs.length then K.set p (select p cs) else K.set p (cs.headD (-1)))
    (List.replicate nPoints (-1))

/-- Mirrors the branch condition under which pair_to_array invokes the
select tie-break: some point is associated to more than one cell. -/
def pair_to_array_select_used (pts : List ℕ) (cls : List ℤ) : Bool :=
  (np_unique pts).any (fun p => 1 < (pairs_for pts cls p).length)

/-- Building a sparse matrix from a pair of index arrays
(scipy coo_matrix): fails when an index is negative or out of range. -/
def pair_to_matrix (pts : List ℕ) (cls : List ℤ) (shape : ℕ × ℕ) :
    Except String CellIndexEnc :=
  if pts.all (fun i => i < shape.1) ∧
      cls.all (fun x => 0 ≤ x ∧ x < (shape.2 : ℤ)) then
    .ok (.matrix (pts.zip (cls.map Int.toNat)) shape)
  else .error "negative or out of bounds index"

/-- format_cell_index: convert a partition from any encoding to any other.
Follows the source line by line: a dense array headed anywhere but to the
array format is first expanded into the pair (arange(n), K); a matrix
target then builds the sparse matrix, while any other target flattens a
sparse input back to its index pair; finally an array target collapses a
pair through pair_to_array. -/
def format_cell_index (K0 : CellIndexEnc) (fmt : IndexFormat)
    (select : ℕ → List ℤ → ℤ) (shape : ℕ × ℕ) : Except String CellIndexEnc :=
  let K1 : CellIndexEnc :=
    match K0, fmt with
    | .array a, .unset | .array a, .array => .array a
    | .array a, _ => .pair (List.range a.length) a
    | k, _ => k
  let K2 : Except String CellIndexEnc :=
    if fmt.isMatrixFamily then
      match K1 with
      | .matrix e s => .ok (.matrix e s)
      | .pair p c => pair_to_matrix p c shape
      | .array a => pair_to_matrix (List.range a.length) a shape
    else
      match K1 with
      | .matrix e _ => .ok (.pair (e.map Prod.fst) (e.map (fun q => (q.2 : ℤ))))
      | k => .ok k
  match K2 with
  | .error msg => .error msg
  | .ok k =>
      match fmt, k with
      | .array, .pair p c => .ok (.array (pair_to_array p c shape.1 select))
      | _, _ => .ok k

/-! ## Delaunay.cell_index, plain nearest-center path
(tramway/tesselation/base.py, lines 567-629, knn, min_location_count and
format all left unset) -/

/-- Auxiliary loop of numpy argmin: scan the remaining distances, keeping
the first index attaining the minimum. -/
def argmin_aux : List ℚ → ℕ → ℕ → ℚ → ℕ
  | [], _, bi, _ => bi
  | d :: ds, i, bi, bd =>
      if d < bd then argmin_aux ds (i + 1) i d else argmin_aux ds (i + 1) bi bd

/-- numpy argmin over a row of distances (first index of the minimum). -/
def np_argmin : List ℚ → ℕ
  | [] => 0
  | d :: ds => argmin_aux ds 1 0 d

/-- Squared euclidean distance.  The source computes the euclidean cdist
metric, whose argmin coincides with the argmin of this squared quantity
since the square root is monotone. -/
def sq_dist (x y : List ℚ) : ℚ :=
  ((x.zip y).map (fun p => (p.1 - p.2) ^ 2)).sum

/-- Delaunay.cell_index with no knn, no min_location_count and no format:
the distance matrix D between the query points and the cell centers is
computed and K = argmin(D, axis = 1) is returned; format_cell_index then
leaves this dense array unchanged. -/
def delaunay_cell_index_plain (points centers : List (List ℚ)) : List ℤ :=
  points.map (fun x => Int.ofNat (np_argmin (centers.map (fun c => sq_dist x c))))

/-! ## RegularMesh.cell_adjacency (tramway/tesselation/base.py, lines 844-858) -/

/-- The flattened meshgrid of grid cell indices (indexing = ij, then
column_stack of the flattened components): all index tuples in row-major
order, the first dimension varying slowest. -/
def grid_indices : List ℕ → List (List ℕ)
  | [] => [[]]
  | c :: cs => (List.range c).flatMap (fun i => (grid_indices cs).map (fun t => i :: t))

/-- Squared euclidean distance between two integer index vectors, the
quantity c2 + c2.T - 2 cix cix.T computed by the source.  On these small
integer values the float arithmetic of the source is exact, and the test
abs(d2 - 1) < 1e-6 of the source holds exactly when d2 = 1. -/
def sq_dist_idx (u v : List ℕ) : ℤ :=
  ((u.zip v).map (fun p => ((p.1 : ℤ) - (p.2 : ℤ)) ^ 2)).sum

/-- RegularMesh.cell_adjacency: cells a and b (as positions in the
flattened grid) are adjacent when the squared distance between their grid
index vectors is 1. -/
def regular_cell_adjacent (counts : List ℕ) (a b : ℕ) : Bool :=
  sq_dist_idx ((grid_indices counts).getD a []) ((grid_indices counts).getD b []) = 1

/-- The rook relation of the specification: the two index vectors differ in
exactly one dimension, and there by exactly one. -/
def differ_by_one_in_one_dim (u v : List ℕ) : Prop :=
  (u.zip v).countP (fun p => p.1 ≠ p.2) = 1 ∧
    ∀ p ∈ u.zip v, p.1 ≠ p.2 → ((p.1 : ℤ) - p.2 = 1 ∨ (p.1 : ℤ) - p.2 = -1)

/-! ## point_adjacency_matrix (tramway/tesselation/base.py, lines 263-340) -/

/-- The points of cell c in a dense-array partition: the indices i with
K[i] = c. -/
def cell_points (K : List ℤ) (c : ℕ) : List ℕ :=
  (List.range K.length).filter (fun p => K.getD p (-1) = Int.ofNat c)

/-- Sum of squared coordinates (the x2 row of the source). -/
def sum_sq (x : List ℚ) : ℚ := (x.map (fun a => a ^ 2)).sum

/-- Dot product (truncating to the shorter vector, as numpy dot on equal
shapes; all uses are on equally long vectors). -/
def dot (x y : List ℚ) : ℚ := ((x.zip y).map (fun p => p.1 * p.2)).sum

/-- The squared-distance entry d2 = x2i + x2j - 2 xi . xj computed by the
source for a pair of points; the source applies one final square root to
every accumulated entry, so the emitted edge weight is the square root of
this value. -/
def d2_entry (x y : List ℚ) : ℚ := sum_sq x + sum_sq y - 2 * dot x y

/-- The edge list accumulated by point_adjacency_matrix on a dense-array
partition, with no cell or adjacency label filters.  For every cell i and
every adjacent cell j with i < j (the source keeps the upper triangular
part of the adjacency row), every point of i is paired with every point of
j; when symetric is true the reversed edge is appended as well.  Each edge
carries the squared distance d2 (the source takes the square root of all of
them at the end). -/
def point_adjacency_edges (X : List (List ℚ)) (K : List ℤ)
    (A : ℕ → ℕ → Bool) (ncells : ℕ) (symetric : Bool) : List (ℕ × ℕ × ℚ) :=
  (List.range ncells).flatMap (fun i =>
    ((List.range ncells).filter (fun j => A i j && decide (i < j))).flatMap (fun j =>
      (cell_points K i).flatMap (fun p =>
        (cell_points K j).flatMap (fun q =>
          (p, q, d2_entry (X.getD p []) (X.getD q [])) ::
            (if symetric then [(q, p, d2_entry (X.getD p []) (X.getD q []))] else [])))))

/-- point_adjacency_matrix itself: partitions in any encoding other than
the dense array are rejected with a NotImplementedError. -/
def point_adjacency_matrix (X : List (List ℚ)) (enc : CellIndexEnc)
    (A : ℕ → ℕ → Bool) (ncells : ℕ) (symetric : Bool) :
    Except String (List (ℕ × ℕ × ℚ)) :=
  match enc with
  | .array K => .ok (point_adjacency_edges X K A ncells symetric)
  | _ => .error "cell overlap support has not been implemented here"

/-! ## Voronoi lazy boundary construction
(tramway/tesselation/base.py, lines 646-763) -/

/-- Result of the geometric solve (scipy.spatial.Voronoi over the cell
centers): vertex coordinates, the vertex adjacency edges, the cell to
vertex-set incidence and the cell adjacency edges.  scipy is external to
the repository, so the solve is a parameter of the model. -/
structure VoronoiGeom where
  vertices : List (List ℚ)
  vertex_adjacency : List (ℕ × ℕ)
  cell_vertices : List (ℕ × List ℕ)
  cell_adjacency : List (ℕ × ℕ)

/-- Observable state of a Voronoi tessellation object: the cell centers
(none before tesselate has been called) and the four cached boundary
fields.  solve_count instruments how many times the geometric solve ran. -/
structure VoronoiState where
  cell_centers : Option (List (List ℚ))
  vertices : Option (List (List ℚ))
  vertex_adjacency : Option (List (ℕ × ℕ))
  cell_vertices : Option (List (ℕ × List ℕ))
  cell_adjacency : Option (List (ℕ × ℕ))
  solve_count : ℕ

/-- The body of Voronoi._postprocess once the cell centers exist: one
geometric solve fills the vertex fields, and the cell adjacency only if it
was not already supplied. -/
def postprocess_update (solve : List (List ℚ) → VoronoiGeom)
    (c : List (List ℚ)) (s : VoronoiState) : VoronoiState :=
  let g := solve c
  { s with
    vertices := some g.vertices
    cell_vertices := some g.cell_vertices
    vertex_adjacency := some g.vertex_adjacency
    cell_adjacency :=
      if s.cell_adjacency.isNone then some g.cell_adjacency else s.cell_adjacency
    solve_count := s.solve_count + 1 }

/-- Voronoi._postprocess: raises a NameError when the cell centers are not
defined, otherwise runs the geometric solve. -/
def voronoi_postprocess (solve : List (List ℚ) → VoronoiGeom)
    (s : VoronoiState) : Except String VoronoiState :=
  match s.cell_centers with
  | none => .error "cell_centers not defined; tesselation has not been grown yet"
  | some c => .ok (postprocess_update solve c s)

/-- The vertices property getter: when the cell centers exist and the
vertex cache is empty, _postprocess is run first; the (possibly updated)
cached value is returned together with the new state.  Before tesselate the
getter skips the computation. -/
def get_vertices (solve : List (List ℚ) → VoronoiGeom) (s : VoronoiState) :
    Option (List (List ℚ)) × VoronoiState :=
  match s.cell_centers with
  | some c =>
      if s.vertices.isNone then
        let s' := postprocess_update solve c s
        (s'.vertices, s')
      else (s.vertices, s)
  | none => (s.vertices, s)

/-- The cell_adjacency property getter of Voronoi (same lazy pattern). -/
def get_cell_adjacency (solve : List (List ℚ) → VoronoiGeom) (s : VoronoiState) :
    Option (List (ℕ × ℕ)) × VoronoiState :=
  match s.cell_centers with
  | some c =>
      if s.cell_adjacency.isNone then
        let s' := postprocess_update solve c s
        (s'.cell_adjacency, s')
      else (s.cell_adjacency, s)
  | none => (s.cell_adjacency, s)

/-- The cell_vertices property getter of Voronoi (same lazy pattern). -/
def get_cell_vertices (solve : List (List ℚ) → VoronoiGeom) (s : VoronoiState) :
    Option (List (ℕ × List ℕ)) × VoronoiState :=
  match s.cell_centers with
  | some c =>
      if s.cell_vertices.isNone then
        let s' := postprocess_update solve c s
        (s'.cell_vertices, s')
      else (s.cell_vertices, s)
  | none => (s.cell_vertices, s)

/-- The vertex_adjacency property getter of Voronoi (same lazy pattern). -/
def get_vertex_adjacency (solve : List (List ℚ) → VoronoiGeom) (s : VoronoiState) :
    Option (List (ℕ × ℕ)) × VoronoiState :=
  match s.cell_centers with
  | some c =>
      if s.vertex_adjacency.isNone then
        let s' := postprocess_update solve c s
        (s'.vertex_adjacency, s')
      else (s.vertex_adjacency, s)
  | none => (s.vertex_adjacency, s)

/-! ## KDTreeMesh.cellIndex, chebyshev fast path
(inferencemap/tesselation/kdtree.py, lines 41-70)

The per-cell levels and the reference_length table come from the
ConnectedDichotomy object built at tesselate time (inferencemap/spatial/
dichotomy.py, outside the given source tree); the model takes them as
inputs, so nothing of the dichotomy itself needs to be stubbed. -/

/-- Chebyshev distance between a point and a cell center (cdist with the
chebyshev metric): the maximum absolute coordinate difference. -/
def chebyshev (x c : List ℚ) : ℚ :=
  ((x.zip c).map (fun p => |p.1 - p.2|)).foldr max 0

/-- The cells matched by point x: those whose chebyshev distance to the
center is at most the reference length of the cell at level + 1 (the dmax
row of the source). -/
def match_row (centers : List (List ℚ)) (levels : List ℕ) (refLen : ℕ → ℚ)
    (x : List ℚ) : List ℕ :=
  (List.range centers.length).filter (fun j =>
    chebyshev x (centers.getD j []) ≤ refLen (levels.getD j 0 + 1))

/-- The (I, J) index pairs of numpy nonzero(D <= dmax), in row-major
order: for each point, in order, its matched cells in order. -/
def within_pairs (centers : List (List ℚ)) (levels : List ℕ) (refLen : ℕ → ℚ)
    (points : List (List ℚ)) : List (ℕ × ℕ) :=
  (List.range points.length).flatMap (fun i =>
    (match_row centers levels refLen (points.getD i [])).map (fun j => (i, j)))

/-- The two shapes a chebyshev cellIndex result can take: the raw J column
of matched cells (one per point when the dense heuristic fires), or the
dense index array K with -1 for unmatched points. -/
inductive ChebyResult where
  | denseJ (J : List ℕ)
  | fullK (K : List ℤ)
  deriving DecidableEq

/-- The heuristic under which the source returns J directly:
I[0] = 0, I has one entry per point, and I[-1] = npoints - 1. -/
def dense_heuristic (n : ℕ) (I : List ℕ) : Bool :=
  I.headD 1 = 0 && I.length = n && I.getLastD 0 = n - 1

/-- The fallback of the source: K = -ones(npoints); K[I] = J.  The numpy
fancy assignment writes the pairs in order, so for a multiply-matched point
the last matched cell wins. -/
def scatter_last_wins (n : ℕ) (IJ : List (ℕ × ℕ)) : List ℤ :=
  IJ.foldl (fun K ij => K.set ij.1 (Int.ofNat ij.2)) (List.replicate n (-1))

/-- KDTreeMesh.cellIndex with metric chebyshev and no size constraints.
When no pair at all satisfies the distance bound the source crashes with an
IndexError on I[0]; this is modelled as none. -/
def kdtree_cell_index_cheby (centers : List (List ℚ)) (levels : List ℕ)
    (refLen : ℕ → ℚ) (points : List (List ℚ)) : Option ChebyResult :=
  let IJ := within_pairs centers levels refLen points
  if IJ = [] then none
  else if dense_heuristic points.length (IJ.map Prod.fst) then
    some (.denseJ (IJ.map Prod.snd))
  else
    some (.fullK (scatter_last_wins points.length IJ))

/-! ## Theorems -/

/-- Claim C1.  The spec asserts that the sum of the per-cell counts equals
the number of assigned (non-sentinel) points and that sentinel points
contribute to no cell.  On the dense-array branch the source indexes the
count vector with the raw unique values, so the sentinel -1 addresses the
last cell (numpy negative indexing): with partition [-1, 0] over 2 cells
the code returns counts [1, 1], crediting the unassigned point to cell 1,
and the total 2 differs from the single assigned point.  This contradicts
the docstring of CellStats (location_count is the number of points in each
cell, -1 marks an unassigned point), so it is a bug in the code. -/
theorem c1_location_count_sentinel_bug :
    location_count_array [-1, 0] 2 = [1, 1] ∧
    (location_count_array [-1, 0] 2).sum = 2 ∧
    assigned_count [-1, 0] = 1 ∧
    (location_count_array [-1, 0] 2).sum ≠ assigned_count [-1, 0] := by
  decide

/-- Claim C7, the claim as stated is false: tesselate on a single point
does not raise; it succeeds and stores the point as the only cell center.
No MeshError class exists in the source. -/
theorem c7_counterexample :
    delaunay_tesselate ⟨none, [[0, 0]]⟩ = .ok [[0, 0]] := rfl

/-- Claim C7, amended.  Delaunay.tesselate performs no minimum-point-count
validation: any plain coordinate array, empty or a single point included,
produces a mesh whose cell centers are the given points.  The only failure
is for structured input missing the x or y column, raised as an
AttributeError (there is no MeshError in the code). -/
theorem c7_tesselate_no_count_check (rows : List (List ℚ)) (cols : List String) :
    delaunay_tesselate ⟨none, rows⟩ = .ok rows ∧
    (("x" ∈ cols ∧ "y" ∈ cols) → delaunay_tesselate ⟨some cols, rows⟩ = .ok rows) ∧
    (¬ ("x" ∈ cols ∧ "y" ∈ cols) →
      delaunay_tesselate ⟨some cols, rows⟩
        = .error "missing x or y in input dataframe") := by
  refine ⟨rfl, fun h => ?_, fun h => ?_⟩ <;> simp [delaunay_tesselate, h]

/-- Witness for c7_tesselate_no_count_check. -/
theorem c7_tesselate_no_count_check_witness :
    ("x" ∈ ["x", "y"] ∧ "y" ∈ ["x", "y"]) ∧
    delaunay_tesselate ⟨some ["x", "y"], [[0, 0]]⟩ = .ok [[0, 0]] :=
  ⟨by decide, (c7_tesselate_no_count_check [[0, 0]] ["x", "y"]).2.1 (by decide)⟩

/-- Claim C9, the claim as stated is false: replacing the tessellation does
not invalidate the bounding-box cache, which stays filled with its previous
value instead of being cleared together with the other derived fields. -/
theorem c9_counterexample :
    (set_tesselation ⟨[[0]], 0, none, none, some ([0], [0])⟩ 1).bounding_box_cache
        = some ([0], [0]) ∧
    (set_tesselation ⟨[[0]], 0, none, none, some ([0], [0])⟩ 1).bounding_box_cache
        ≠ none := by
  decide

/-- Claim C9, amended.  Replacing the point set invalidates every derived
cache (partition, per-cell counts, bounding box); replacing the
tessellation or the partition invalidates the caches that depend on it
(the partition and/or the per-cell counts) but leaves the bounding-box
cache untouched; since that cache depends only on the unchanged point set,
no derived value computed from replaced state remains observable after any
single replacement. -/
theorem c9_invalidation (s : CellStatsState) (p : List (List ℚ)) (t : ℕ)
    (k : Option (List ℤ)) :
    (set_points s p).cell_index_cache = none ∧
    (set_points s p).location_count_cache = none ∧
    (set_points s p).bounding_box_cache = none ∧
    (set_tesselation s t).cell_index_cache = none ∧
    (set_tesselation s t).location_count_cache = none ∧
    (set_tesselation s t).bounding_box_cache = s.bounding_box_cache ∧
    (set_tesselation s t).points = s.points ∧
    (set_cell_index s k).cell_index_cache = k ∧
    (set_cell_index s k).location_count_cache = none ∧
    (set_cell_index s k).bounding_box_cache = s.bounding_box_cache ∧
    (set_cell_index s k).points = s.points ∧
    (bb_consistent s →
      bb_consistent (set_points s p) ∧ bb_consistent (set_tesselation s t) ∧
        bb_consistent (set_cell_index s k)) := by
  refine ⟨rfl, rfl, rfl, rfl, rfl, rfl, rfl, rfl, rfl, rfl, rfl, fun hs => ?_⟩
  refine ⟨fun bb hbb => by simp [set_points, set_cell_index] at hbb, ?_, ?_⟩ <;>
    exact fun bb hbb => hs bb hbb

/-- Witness for c9_invalidation. -/
theorem c9_invalidation_witness :
    bb_consistent ⟨[[0]], 0, none, none, some ([0], [0])⟩ ∧
    (set_tesselation ⟨[[0]], 0, none, none, some ([0], [0])⟩ 1).location_count_cache
      = none :=
  have hs : bb_consistent ⟨[[0]], 0, none, none, some ([0], [0])⟩ := by
    intro bb hbb
    injection hbb with h
    exact h ▸ rfl
  ⟨hs, (c9_invalidation ⟨[[0]], 0, none, none, some ([0], [0])⟩ [[1]] 1 none).2.2.2.2.1⟩

/-- Claim C8, the claim as stated is false: on a Voronoi object on which
tessellate has not been run (no cell centers), accessing cell_adjacency
does not raise NotTessellatedError (no such class exists in the source); the
getter skips the lazy computation and plainly returns the empty cache. -/
theorem c8_counterexample :
    get_cell_adjacency (fun _ => ⟨[], [], [], []⟩) ⟨none, none, none, none, none, 0⟩
      = (none, ⟨none, none, none, none, none, 0⟩) := rfl

/-- Claim C8, amended.  On a tessellated Voronoi object with empty caches,
the first access to vertices runs the geometric solve exactly once and
fills the vertex, cell-vertex and vertex-adjacency caches (and the
cell-adjacency cache if it was not supplied); every subsequent access to
any of the four fields recomputes nothing and returns the cached values.
Calling _postprocess directly without cell centers raises an error (a
NameError, not a NotTessellatedError); accessing the fields before
tessellate does not raise: the getters skip the computation and return the
unfilled caches. -/
theorem c8_lazy_voronoi (solve : List (List ℚ) → VoronoiGeom)
    (s : VoronoiState) (c : List (List ℚ))
    (hc : s.cell_centers = some c) (hv : s.vertices = none) :
    (((get_vertices solve s).1 = some (solve c).vertices ∧
      (get_vertices solve s).2.solve_count = s.solve_count + 1 ∧
      (get_vertices solve s).2.vertices = some (solve c).vertices ∧
      (get_vertices solve s).2.cell_vertices = some (solve c).cell_vertices ∧
      (get_vertices solve s).2.vertex_adjacency = some (solve c).vertex_adjacency ∧
      (s.cell_adjacency = none →
        (get_vertices solve s).2.cell_adjacency = some (solve c).cell_adjacency)) ∧
     (get_vertices solve (get_vertices solve s).2
        = ((get_vertices solve s).2.vertices, (get_vertices solve s).2) ∧
      get_cell_adjacency solve (get_vertices solve s).2
        = ((get_vertices solve s).2.cell_adjacency, (get_vertices solve s).2) ∧
      get_cell_vertices solve (get_vertices solve s).2
        = ((get_vertices solve s).2.cell_vertices, (get_vertices solve s).2) ∧
      get_vertex_adjacency solve (get_vertices solve s).2
        = ((get_vertices solve s).2.vertex_adjacency, (get_vertices solve s).2))) ∧
    (∀ s0 : VoronoiState, s0.cell_centers = none →
      voronoi_postprocess solve s0
          = .error "cell_centers not defined; tesselation has not been grown yet" ∧
      get_cell_adjacency solve s0 = (s0.cell_adjacency, s0) ∧
      get_vertices solve s0 = (s0.vertices, s0)) := by
  constructor
  · have hs1 : (get_vertices solve s).2 = postprocess_update solve c s := by
      simp [get_vertices, hc, hv]
    refine ⟨⟨?_, ?_, ?_, ?_, ?_, ?_⟩, ?_, ?_, ?_, ?_⟩
    · simp [get_vertices, hc, hv, postprocess_update]
    · rw [hs1]; rfl
    · rw [hs1]; rfl
    · rw [hs1]; rfl
    · rw [hs1]; rfl
    · intro ha; rw [hs1]; simp [postprocess_update, ha]
    · rw [hs1]; simp [get_vertices, postprocess_update, hc]
    · rw [hs1]
      by_cases ha : s.cell_adjacency = none <;>
        simp [get_cell_adjacency, postprocess_update, hc, ha, Option.isNone_iff_eq_none]
    · rw [hs1]; simp [get_cell_vertices, postprocess_update, hc]
    · rw [hs1]; simp [get_vertex_adjacency, postprocess_update, hc]
  · intro s0 h0
    refine ⟨?_, ?_, ?_⟩ <;> simp [voronoi_postprocess, get_cell_adjacency, get_vertices, h0]

/-- Witness for c8_lazy_voronoi. -/
theorem c8_lazy_voronoi_witness :
    ((⟨some [[0]], none, none, none, none, 0⟩ : VoronoiState).cell_centers
        = some [[0]] ∧
     (⟨some [[0]], none, none, none, none, 0⟩ : VoronoiState).vertices = none) ∧
    (get_vertices (fun _ => ⟨[[1]], [(0, 0)], [(0, [0])], [(0, 1)]⟩)
        ⟨some [[0]], none, none, none, none, 0⟩).2.solve_count = 1 :=
  ⟨⟨rfl, rfl⟩,
    ((c8_lazy_voronoi (fun _ => ⟨[[1]], [(0, 0)], [(0, [0])], [(0, 1)]⟩)
      ⟨some [[0]], none, none, none, none, 0⟩ [[0]] rfl rfl).1.1).2.1⟩

/-! ### Claim C10 support: numpy argmin bounds -/

/-- The auxiliary argmin scan returns either the incumbent index or the
index of a later entry. -/
theorem argmin_aux_lt (ds : List ℚ) :
    ∀ (i bi : ℕ) (bd : ℚ), bi < i → argmin_aux ds i bi bd < i + ds.length := by
  induction ds with
  | nil => intro i bi bd h; simp only [argmin_aux]; omega
  | cons d ds ih =>
      intro i bi bd h
      simp only [argmin_aux, List.length_cons]
      by_cases hlt : d < bd
      · rw [if_pos hlt]
        have h2 := ih (i + 1) i d (Nat.lt_succ_self i)
        omega
      · rw [if_neg hlt]
        have h2 := ih (i + 1) bi bd (by omega)
        omega

/-- numpy argmin over a nonempty list is a valid index. -/
theorem np_argmin_lt (l : List ℚ) (h : l ≠ []) : np_argmin l < l.length := by
  cases l with
  | nil => exact absurd rfl h
  | cons d ds =>
      simp only [np_argmin, List.length_cons]
      have h2 := argmin_aux_lt ds 1 0 d Nat.one_pos
      omega

/-- Claim C10.  The plain nearest-center assignment (no knn, no
min_location_count, no format) is total: with at least one cell center,
every query point receives a cell index in [0, cellCount) and the sentinel
-1 never occurs; format_cell_index with an unset format then returns this
dense array unchanged. -/
theorem c10_plain_assignment_total (points centers : List (List ℚ))
    (h : centers ≠ []) :
    (∀ k ∈ delaunay_cell_index_plain points centers,
        0 ≤ k ∧ k.toNat < centers.length ∧ k ≠ -1) ∧
    (∀ (sel : ℕ → List ℤ → ℤ) (m : ℕ),
      format_cell_index (.array (delaunay_cell_index_plain points centers))
          .unset sel (points.length, m)
        = .ok (.array (delaunay_cell_index_plain points centers))) := by
  constructor
  · intro k hk
    rcases List.mem_map.1 hk with ⟨x, _, rfl⟩
    have hne : centers.map (fun c => sq_dist x c) ≠ [] := by
      simpa using h
    have hlt := np_argmin_lt _ hne
    rw [List.length_map] at hlt
    refine ⟨Int.ofNat_nonneg _, by simpa using hlt, ?_⟩
    simp only [Int.ofNat_eq_natCast]
    omega
  · intro sel m; rfl

/-- Witness for c10_plain_assignment_total. -/
theorem c10_plain_assignment_total_witness :
    (([[0], [2]] : List (List ℚ)) ≠ []) ∧
    (∀ k ∈ delaunay_cell_index_plain [[1], [9]] [[0], [2]],
        0 ≤ k ∧ k.toNat < 2 ∧ k ≠ -1) :=
  ⟨by decide, (c10_plain_assignment_total [[1], [9]] [[0], [2]] (by decide)).1⟩

/-! ### Claim C2 support: the pair-to-array collapse of an arange pair -/

theorem insSorted_cons_of_le [LinearOrder α] (x y : α) (ys : List α) (h : x ≤ y) :
    insSorted x (y :: ys) = x :: y :: ys := by
  simp [insSorted, h]

theorem sortList_range' (m : ℕ) :
    ∀ a : ℕ, sortList (List.range' a m) = List.range' a m := by
  induction m with
  | zero => intro a; rfl
  | succ k ih =>
      intro a
      rw [List.range'_succ]
      show insSorted a (sortList (List.range' (a + 1) k)) = a :: List.range' (a + 1) k
      rw [ih (a + 1)]
      cases k with
      | zero => rfl
      | succ k2 =>
          rw [List.range'_succ]
          exact insSorted_cons_of_le _ _ _ (by omega)

theorem np_unique_range (n : ℕ) : np_unique (List.range n) = List.range n := by
  unfold np_unique
  rw [List.dedup_eq_self.2 (List.nodup_range n), List.range_eq_range', sortList_range']

theorem pairs_for_range' (K : List ℤ) :
    ∀ (a p : ℕ), pairs_for (List.range' a K.length) K p
      = if a ≤ p ∧ p - a < K.length then [K.getD (p - a) 0] else [] := by
  induction K with
  | nil => intro a p; simp [pairs_for]
  | cons c K ih =>
      intro a p
      rw [List.length_cons, List.range'_succ]
      unfold pairs_for
      rw [List.zip_cons_cons]
      by_cases hap : a = p
      · subst hap
        rw [List.filterMap_cons_some (b := c) (by simp)]
        have ht := ih (a + 1) a
        unfold pairs_for at ht
        rw [ht, if_neg (by omega), if_pos (by omega : a ≤ a ∧ a - a < K.length + 1)]
        simp
      · rw [List.filterMap_cons_none (by simp [hap])]
        have ht := ih (a + 1) p
        unfold pairs_for at ht
        rw [ht]
        by_cases hle : a + 1 ≤ p ∧ p - (a + 1) < K.length
        · rw [if_pos hle, if_pos (by omega)]
          have hsub : p - a = (p - (a + 1)) + 1 := by omega
          rw [hsub, List.getD_cons_succ]
        · rw [if_neg hle, if_neg (by omega)]

theorem pairs_for_range (K : List ℤ) (p : ℕ) (hp : p < K.length) :
    pairs_for (List.range K.length) K p = [K.getD p 0] := by
  rw [List.range_eq_range', pairs_for_range' K 0 p, if_pos (by omega)]
  simp

theorem pairs_for_range_len (K : List ℤ) (p : ℕ) :
    (pairs_for (List.range K.length) K p).length ≤ 1 := by
  rw [List.range_eq_range', pairs_for_range' K 0 p]
  split <;> simp

theorem foldl_set_spec (f : ℕ → ℤ) (m : ℕ) :
    ∀ (a : ℕ) (A : List ℤ),
      ((List.range' a m).foldl (fun K p => K.set p (f p)) A).length = A.length ∧
      ∀ i : ℕ,
        ((List.range' a m).foldl (fun K p => K.set p (f p)) A)[i]?
          = if a ≤ i ∧ i < a + m ∧ i < A.length then some (f i) else A[i]? := by
  induction m with
  | zero =>
      intro a A
      refine ⟨rfl, fun i => ?_⟩
      rw [if_neg (by omega)]
      rfl
  | succ k ih =>
      intro a A
      rw [List.range'_succ, List.foldl_cons]
      obtain ⟨hlen, hget⟩ := ih (a + 1) (A.set a (f a))
      rw [List.length_set] at hlen
      refine ⟨hlen, fun i => ?_⟩
      rw [hget i, List.length_set, List.getElem?_set]
      rcases eq_or_ne a i with hia | hia
      · subst hia
        rw [if_neg (by omega), if_pos rfl]
        by_cases hlen2 : a < A.length
        · rw [if_pos hlen2, if_pos (by omega)]
        · rw [if_neg hlen2, if_neg (by omega)]
          exact (List.getElem?_eq_none (by omega)).symm
      · rw [if_neg hia]
        by_cases hc : a + 1 ≤ i ∧ i < (a + 1) + k ∧ i < A.length
        · rw [if_pos hc, if_pos (by omega)]
        · rw [if_neg hc, if_neg (by omega)]

theorem pair_to_array_roundtrip (K : List ℤ) (sel : ℕ → List ℤ → ℤ) :
    pair_to_array (List.range K.length) K K.length sel = K := by
  unfold pair_to_array
  rw [np_unique_range]
  have hbody : ∀ (A : List ℤ), ∀ p ∈ List.range K.length,
      (let cs := pairs_for (List.range K.length) K p
        if 1 < cs.length then A.set p (sel p cs) else A.set p (cs.headD (-1)))
        = A.set p (K.getD p 0) := by
    intro A p hp
    rw [List.mem_range] at hp
    simp only [pairs_for_range K p hp]
    simp
  rw [List.foldl_ext _ (fun A p => A.set p (K.getD p 0)) _ hbody, List.range_eq_range']
  obtain ⟨hlen, hget⟩ :=
    foldl_set_spec (fun p => K.getD p 0) K.length 0 (List.replicate K.length (-1))
  apply List.ext_getElem?
  intro i
  rw [hget i]
  by_cases hi : i < K.length
  · rw [if_pos (by simp; omega)]
    rw [List.getD_eq_getElem K 0 hi, List.getElem?_eq_getElem hi]
  · rw [if_neg (by simp; omega)]
    rw [List.getElem?_eq_none (by simpa using hi),
      List.getElem?_eq_none (by omega)]

theorem pair_to_array_select_not_used (K : List ℤ) :
    pair_to_array_select_used (List.range K.length) K = false := by
  unfold pair_to_array_select_used
  rw [np_unique_range, List.any_eq_false]
  intro p _
  have hlen := pairs_for_range_len K p
  simp only [decide_eq_true_eq]
  omega

/-- Claim C2.  Converting a dense array to the pair encoding produces the
pair (arange(n), K), sentinel entries included, and converting that pair
back to the array encoding reproduces the original array exactly; the
select tie-break is never invoked (the result holds for every select
function, and the branch guarding the select call is never taken since
every point index occurs exactly once in the pair). -/
theorem c2_array_pair_array_roundtrip (K : List ℤ) (sel : ℕ → List ℤ → ℤ) (m : ℕ) :
    format_cell_index (.array K) .pair sel (K.length, m)
        = .ok (.pair (List.range K.length) K) ∧
    format_cell_index (.pair (List.range K.length) K) .array sel (K.length, m)
        = .ok (.array K) ∧
    pair_to_array_select_used (List.range K.length) K = false := by
  refine ⟨rfl, ?_, pair_to_array_select_not_used K⟩
  show Except.ok (CellIndexEnc.array (pair_to_array (List.range K.length) K K.length sel))
      = Except.ok (CellIndexEnc.array K)
  rw [pair_to_array_roundtrip]

/-! ### Claim C5 support: sums of squared index differences -/

theorem sq_sum_nonneg (l : List (ℕ × ℕ)) :
    0 ≤ (l.map (fun p => ((p.1 : ℤ) - (p.2 : ℤ)) ^ 2)).sum := by
  apply List.sum_nonneg
  intro x hx
  rcases List.mem_map.1 hx with ⟨p, _, rfl⟩
  positivity

theorem sq_sum_eq_zero (l : List (ℕ × ℕ)) :
    (l.map (fun p => ((p.1 : ℤ) - (p.2 : ℤ)) ^ 2)).sum = 0 ↔ ∀ p ∈ l, p.1 = p.2 := by
  induction l with
  | nil => simp
  | cons q l ih =>
      simp only [List.map_cons, List.sum_cons, List.mem_cons]
      constructor
      · intro h
        have h1 : 0 ≤ ((q.1 : ℤ) - (q.2 : ℤ)) ^ 2 := by positivity
        have h2 := sq_sum_nonneg l
        have hq : ((q.1 : ℤ) - (q.2 : ℤ)) ^ 2 = 0 := by linarith
        have hq2 : q.1 = q.2 := by
          have h3 := sq_eq_zero_iff.1 hq
          omega
        rintro p (rfl | hp)
        · exact hq2
        · exact (ih.1 (by linarith)) p hp
      · intro h
        have hq : ((q.1 : ℤ) - (q.2 : ℤ)) ^ 2 = 0 := by
          rw [h q (Or.inl rfl)]; ring
        rw [hq, zero_add, ih]
        exact fun p hp => h p (Or.inr hp)

theorem sq_sum_eq_one (l : List (ℕ × ℕ)) :
    (l.map (fun p => ((p.1 : ℤ) - (p.2 : ℤ)) ^ 2)).sum = 1 ↔
      (l.countP (fun p => p.1 ≠ p.2) = 1 ∧
        ∀ p ∈ l, p.1 ≠ p.2 → ((p.1 : ℤ) - (p.2 : ℤ) = 1 ∨ (p.1 : ℤ) - (p.2 : ℤ) = -1)) := by
  induction l with
  | nil => simp
  | cons q l ih =>
      simp only [List.map_cons, List.sum_cons, List.countP_cons, List.mem_cons]
      by_cases hq : q.1 = q.2
      · have hq0 : ((q.1 : ℤ) - (q.2 : ℤ)) ^ 2 = 0 := by rw [hq]; ring
        rw [hq0, zero_add, ih]
        constructor
        · rintro ⟨hc, hall⟩
          refine ⟨by rw [if_neg (by simp [hq]), add_zero]; exact hc, ?_⟩
          rintro p (rfl | hp) hne
          · exact absurd hq hne
          · exact hall p hp hne
        · rintro ⟨hc, hall⟩
          rw [if_neg (by simp [hq]), add_zero] at hc
          exact ⟨hc, fun p hp hne => hall p (Or.inr hp) hne⟩
      · have hne0 : (q.1 : ℤ) - (q.2 : ℤ) ≠ 0 := by omega
        have h1 : 1 ≤ ((q.1 : ℤ) - (q.2 : ℤ)) ^ 2 := by
          rcases lt_or_gt_of_ne hne0 with h | h
          · nlinarith
          · nlinarith
        constructor
        · intro h
          have h2 := sq_sum_nonneg l
          have hq1 : ((q.1 : ℤ) - (q.2 : ℤ)) ^ 2 = 1 := by linarith
          have hrest : (l.map (fun p => ((p.1 : ℤ) - (p.2 : ℤ)) ^ 2)).sum = 0 := by
            linarith
          have hallz := (sq_sum_eq_zero l).1 hrest
          have hd : (q.1 : ℤ) - (q.2 : ℤ) = 1 ∨ (q.1 : ℤ) - (q.2 : ℤ) = -1 := by
            have h3 : (((q.1 : ℤ) - (q.2 : ℤ)) - 1) * (((q.1 : ℤ) - (q.2 : ℤ)) + 1) = 0 := by
              linear_combination hq1
            rcases mul_eq_zero.1 h3 with h4 | h4
            · left; linarith
            · right; linarith
          have hcl : l.countP (fun p => p.1 ≠ p.2) = 0 := by
            rw [List.countP_eq_zero]
            intro p hp
            simpa using hallz p hp
          refine ⟨by rw [if_pos (by simp [hq]), hcl], ?_⟩
          rintro p (rfl | hp) hne
          · exact hd
          · exact absurd (hallz p hp) hne
        · rintro ⟨hc, hall⟩
          rw [if_pos (by simp [hq])] at hc
          have hcl : l.countP (fun p => p.1 ≠ p.2) = 0 := by omega
          have hrest : (l.map (fun p => ((p.1 : ℤ) - (p.2 : ℤ)) ^ 2)).sum = 0 := by
            rw [sq_sum_eq_zero l]
            intro p hp
            by_contra hpne
            have h5 := List.countP_eq_zero.1 hcl p hp
            exact h5 (by simpa using hpne)
          rcases hall q (Or.inl rfl) hq with hd | hd <;> rw [hrest, hd] <;> ring

theorem sq_dist_idx_comm (u : List ℕ) : ∀ v, sq_dist_idx u v = sq_dist_idx v u := by
  induction u with
  | nil => intro v; cases v <;> simp [sq_dist_idx]
  | cons a u ih =>
      intro v
      cases v with
      | nil => simp [sq_dist_idx]
      | cons b v =>
          simp only [sq_dist_idx, List.zip_cons_cons, List.map_cons, List.sum_cons]
          have h := ih v
          simp only [sq_dist_idx] at h
          rw [h]
          have hh : ((a : ℤ) - (b : ℤ)) ^ 2 = ((b : ℤ) - (a : ℤ)) ^ 2 := by ring
          rw [hh]

theorem sq_dist_idx_self (u : List ℕ) : sq_dist_idx u u = 0 := by
  induction u with
  | nil => rfl
  | cons a u ih =>
      simp only [sq_dist_idx, List.zip_cons_cons, List.map_cons, List.sum_cons] at *
      rw [ih]
      ring

/-- Claim C5.  For the regular grid, two cells are adjacent exactly when
their grid index vectors differ by one in exactly one dimension (the float
test abs(d2 - 1) < 1e-6 of the source is exact on these integer values
and holds precisely when the squared index distance is 1); the relation is
symmetric and no cell is adjacent to itself; and on the [3, 3] grid the
center cell (position 4, grid index (1, 1)) has exactly 4 neighbors while
the corner cell (position 0, grid index (0, 0)) has exactly 2. -/
theorem c5_regular_grid_adjacency (counts : List ℕ) (a b : ℕ) :
    (regular_cell_adjacent counts a b = true ↔
      differ_by_one_in_one_dim ((grid_indices counts).getD a [])
        ((grid_indices counts).getD b [])) ∧
    regular_cell_adjacent counts a b = regular_cell_adjacent counts b a ∧
    regular_cell_adjacent counts a a = false ∧
    ((grid_indices [3, 3]).getD 4 [] = [1, 1] ∧
      (grid_indices [3, 3]).getD 0 [] = [0, 0] ∧
      (List.range 9).countP (fun j => regular_cell_adjacent [3, 3] 4 j) = 4 ∧
      (List.range 9).countP (fun j => regular_cell_adjacent [3, 3] 0 j) = 2) := by
  refine ⟨?_, ?_, ?_, by decide⟩
  · unfold regular_cell_adjacent differ_by_one_in_one_dim
    rw [decide_eq_true_eq]
    exact sq_sum_eq_one _
  · unfold regular_cell_adjacent
    rw [sq_dist_idx_comm]
  · unfold regular_cell_adjacent
    rw [sq_dist_idx_self]
    rfl

/-! ### Claim C3 and C4 support: the chebyshev query path -/

theorem mem_within_pairs (centers : List (List ℚ)) (levels : List ℕ)
    (refLen : ℕ → ℚ) (points : List (List ℚ)) (i j : ℕ) :
    (i, j) ∈ within_pairs centers levels refLen points ↔
      (i < points.length ∧ j < centers.length ∧
        chebyshev (points.getD i []) (centers.getD j [])
          ≤ refLen (levels.getD j 0 + 1)) := by
  simp only [within_pairs, match_row, List.mem_flatMap, List.mem_range, List.mem_map,
    List.mem_filter, decide_eq_true_eq, Prod.mk.injEq]
  constructor
  · rintro ⟨a, ha, b, ⟨hb, hle⟩, rfl, rfl⟩
    exact ⟨ha, hb, hle⟩
  · rintro ⟨hi, hj, hle⟩
    exact ⟨i, hi, j, ⟨hj, hle⟩, rfl, rfl⟩

theorem flatMap_singleton_eq_map (l : List α) (f : α → List β) (g : α → β)
    (h : ∀ a ∈ l, f a = [g a]) : l.flatMap f = l.map g := by
  induction l with
  | nil => rfl
  | cons a l ih =>
      rw [List.flatMap_cons, List.map_cons, h a (List.mem_cons_self a l),
        ih (fun b hb => h b (List.mem_cons_of_mem a hb))]
      rfl

theorem dense_heuristic_range (n : ℕ) (hn : 0 < n) :
    dense_heuristic n (List.range n) = true := by
  unfold dense_heuristic
  simp only [Bool.and_eq_true, decide_eq_true_eq]
  obtain ⟨m, hm⟩ : ∃ m, n = m + 1 := ⟨n - 1, by omega⟩
  subst hm
  refine ⟨⟨?_, by simp⟩, ?_⟩
  · rw [List.range_succ_eq_map]
    rfl
  · rw [List.range_succ, List.getLastD_concat]
    omega

/-- When every point has exactly one matched cell, the association pairs
are exactly one (i, cell of i) entry per point, in point order. -/
theorem within_pairs_of_unique (centers : List (List ℚ)) (levels : List ℕ)
    (refLen : ℕ → ℚ) (points : List (List ℚ))
    (h1 : ∀ i < points.length,
      (match_row centers levels refLen (points.getD i [])).length = 1) :
    within_pairs centers levels refLen points
      = (List.range points.length).map
          (fun i => (i, (match_row centers levels refLen (points.getD i [])).headD 0)) := by
  unfold within_pairs
  apply flatMap_singleton_eq_map
  intro i hi
  rw [List.mem_range] at hi
  obtain ⟨j, hj⟩ := List.length_eq_one.1 (h1 i hi)
  simp only [hj]
  rfl

theorem map_fst_range_pairs (n : ℕ) (g : ℕ → ℕ) :
    (((List.range n).map (fun i => (i, g i))).map Prod.fst) = List.range n := by
  rw [List.map_map]
  exact List.map_id' _

/-- Exactly one matched cell per point (with at least one point) makes the
I column equal to arange(n), so the dense heuristic of the source fires. -/
theorem kdtree_unique_heuristic (centers : List (List ℚ)) (levels : List ℕ)
    (refLen : ℕ → ℚ) (points : List (List ℚ))
    (hn : 0 < points.length)
    (h1 : ∀ i < points.length,
      (match_row centers levels refLen (points.getD i [])).length = 1) :
    dense_heuristic points.length
      ((within_pairs centers levels refLen points).map Prod.fst) = true := by
  rw [within_pairs_of_unique centers levels refLen points h1, map_fst_range_pairs]
  exact dense_heuristic_range _ hn

/-- The dense branch of the chebyshev query: whenever the heuristic holds,
the raw J column of the association pairs is returned as a dense array. -/
theorem kdtree_heuristic_path (centers : List (List ℚ)) (levels : List ℕ)
    (refLen : ℕ → ℚ) (points : List (List ℚ))
    (hheur : dense_heuristic points.length
      ((within_pairs centers levels refLen points).map Prod.fst) = true) :
    kdtree_cell_index_cheby centers levels refLen points
      = some (.denseJ ((within_pairs centers levels refLen points).map Prod.snd)) := by
  have hne : within_pairs centers levels refLen points ≠ [] := by
    intro h0
    rw [h0] at hheur
    simp [dense_heuristic] at hheur
  unfold kdtree_cell_index_cheby
  rw [if_neg hne, if_pos hheur]

theorem kdtree_dense_path (centers : List (List ℚ)) (levels : List ℕ)
    (refLen : ℕ → ℚ) (points : List (List ℚ))
    (hn : 0 < points.length)
    (h1 : ∀ i < points.length,
      (match_row centers levels refLen (points.getD i [])).length = 1) :
    kdtree_cell_index_cheby centers levels refLen points
      = some (.denseJ ((List.range points.length).map
          (fun i => (match_row centers levels refLen (points.getD i [])).headD 0))) := by
  rw [kdtree_heuristic_path centers levels refLen points
    (kdtree_unique_heuristic centers levels refLen points hn h1),
    within_pairs_of_unique centers levels refLen points h1, List.map_map]
  rfl

theorem scatter_last_wins_length (IJ : List (ℕ × ℕ)) :
    ∀ A : List ℤ, (IJ.foldl (fun K ij => K.set ij.1 (Int.ofNat ij.2)) A).length
      = A.length := by
  induction IJ with
  | nil => intro A; rfl
  | cons ij IJ ih => intro A; rw [List.foldl_cons, ih, List.length_set]

theorem scatter_unmatched_aux (IJ : List (ℕ × ℕ)) (i : ℕ)
    (h : ∀ pr ∈ IJ, pr.1 ≠ i) :
    ∀ A : List ℤ, (IJ.foldl (fun K ij => K.set ij.1 (Int.ofNat ij.2)) A)[i]?
      = A[i]? := by
  induction IJ with
  | nil => intro A; rfl
  | cons pr IJ ih =>
      intro A
      rw [List.foldl_cons, ih (fun x hx => h x (List.mem_cons_of_mem pr hx)),
        List.getElem?_set, if_neg (h pr (List.mem_cons_self pr IJ))]

theorem scatter_unmatched (n : ℕ) (IJ : List (ℕ × ℕ)) (i : ℕ) (hi : i < n)
    (h : ∀ pr ∈ IJ, pr.1 ≠ i) : (scatter_last_wins n IJ).getD i 0 = -1 := by
  unfold scatter_last_wins
  rw [List.getD_eq_getElem?_getD, scatter_unmatched_aux IJ i h,
    List.getElem?_replicate, if_pos hi]
  rfl

theorem scatter_nonneg_aux (IJ : List (ℕ × ℕ)) (i : ℕ) :
    ∀ A : List ℤ, i < A.length →
      ((∃ pr ∈ IJ, pr.1 = i) ∨ 0 ≤ A.getD i 0) →
      0 ≤ (IJ.foldl (fun K ij => K.set ij.1 (Int.ofNat ij.2)) A).getD i 0 := by
  induction IJ with
  | nil =>
      intro A _ h
      rcases h with ⟨pr, hpr, _⟩ | h
      · exact absurd hpr (List.not_mem_nil pr)
      · exact h
  | cons pr IJ ih =>
      intro A hi h
      rw [List.foldl_cons]
      apply ih (A.set pr.1 (Int.ofNat pr.2)) (by rw [List.length_set]; exact hi)
      rcases h with ⟨pr2, hpr2, hpr2i⟩ | h
      · rcases List.mem_cons.1 hpr2 with rfl | hmem
        · right
          rw [List.getD_eq_getElem?_getD, List.getElem?_set, if_pos hpr2i,
            if_pos (hpr2i ▸ hi)]
          exact Int.ofNat_nonneg _
        · left
          exact ⟨pr2, hmem, hpr2i⟩
      · right
        rw [List.getD_eq_getElem?_getD, List.getElem?_set]
        by_cases he : pr.1 = i
        · rw [if_pos he, if_pos (he ▸ hi)]
          exact Int.ofNat_nonneg _
        · rw [if_neg he]
          rw [List.getD_eq_getElem?_getD] at h
          exact h

theorem scatter_matched_nonneg (n : ℕ) (IJ : List (ℕ × ℕ)) (i : ℕ) (hi : i < n)
    (h : ∃ pr ∈ IJ, pr.1 = i) : 0 ≤ (scatter_last_wins n IJ).getD i 0 :=
  scatter_nonneg_aux IJ i _ (by rw [List.length_replicate]; exact hi) (Or.inl h)

/-- Claim C3, the claim as stated is false: when not every point has
exactly one matching cell, the chebyshev path does not fall back to the
sparse pair encoding; it returns a dense index array with the -1 sentinel.
Here point 0 matches the single cell and point 1 matches nothing, and the
result is the array [0, -1]. -/
theorem c3_counterexample :
    kdtree_cell_index_cheby [[0]] [0] (fun _ => 1) [[0], [5]]
      = some (.fullK [0, -1]) := by
  have hw : within_pairs [[0]] [0] (fun _ => 1) [[(0 : ℚ)], [5]] = [(0, 0)] := by
    unfold within_pairs match_row chebyshev
    norm_num [List.range_succ]
  unfold kdtree_cell_index_cheby
  rw [hw]
  rfl

/-- Claim C3, amended.  With metric chebyshev and no count constraints, a
query point is associated with exactly those cells whose chebyshev distance
to the center is at most the cell reference length at level + 1.  The code
branches not on a per-point uniqueness check but on the heuristic
I[0] = 0 and |I| = n and I[-1] = n - 1 over the row-major association pairs
(I, J): whenever the heuristic holds, the raw J column is returned as the
dense result.  Exactly one matched cell per point (with at least one point)
implies the heuristic, and then the result is the dense array of the
per-point cell indices; but the heuristic is strictly weaker, and can fire
when an earlier point has several cells and a later one none, in which case
the misaligned raw J is returned with no -1 for the unmatched point.  When
the heuristic fails and at least one association exists, the result is a
dense index array carrying -1 exactly for the points with no associated
cell, never a sparse pair encoding (with no association at all the source
crashes on an empty-array lookup). -/
theorem c3_kdtree_cheby (centers : List (List ℚ)) (levels : List ℕ)
    (refLen : ℕ → ℚ) (points : List (List ℚ)) :
    (∀ i j : ℕ, (i, j) ∈ within_pairs centers levels refLen points ↔
      (i < points.length ∧ j < centers.length ∧
        chebyshev (points.getD i []) (centers.getD j [])
          ≤ refLen (levels.getD j 0 + 1))) ∧
    (dense_heuristic points.length
        ((within_pairs centers levels refLen points).map Prod.fst) = true →
      kdtree_cell_index_cheby centers levels refLen points
        = some (.denseJ ((within_pairs centers levels refLen points).map Prod.snd))) ∧
    (0 < points.length →
      (∀ i < points.length,
        (match_row centers levels refLen (points.getD i [])).length = 1) →
      dense_heuristic points.length
          ((within_pairs centers levels refLen points).map Prod.fst) = true ∧
      kdtree_cell_index_cheby centers levels refLen points
        = some (.denseJ ((List.range points.length).map
            (fun i => (match_row centers levels refLen (points.getD i [])).headD 0)))) ∧
    (within_pairs centers levels refLen points ≠ [] →
      dense_heuristic points.length
          ((within_pairs centers levels refLen points).map Prod.fst) = false →
      kdtree_cell_index_cheby centers levels refLen points
        = some (.fullK (scatter_last_wins points.length
            (within_pairs centers levels refLen points)))) ∧
    (∀ i < points.length,
      (∀ j, (i, j) ∉ within_pairs centers levels refLen points) →
      (scatter_last_wins points.length
          (within_pairs centers levels refLen points)).getD i 0 = -1) ∧
    (∀ i < points.length,
      (∃ j, (i, j) ∈ within_pairs centers levels refLen points) →
      0 ≤ (scatter_last_wins points.length
          (within_pairs centers levels refLen points)).getD i 0) := by
  refine ⟨mem_within_pairs centers levels refLen points,
    kdtree_heuristic_path centers levels refLen points,
    fun hn h1 => ⟨kdtree_unique_heuristic centers levels refLen points hn h1,
      kdtree_dense_path centers levels refLen points hn h1⟩, ?_, ?_, ?_⟩
  · intro hne hheur
    unfold kdtree_cell_index_cheby
    rw [if_neg hne, if_neg (by rw [hheur]; exact Bool.false_ne_true)]
  · intro i hi hno
    apply scatter_unmatched _ _ _ hi
    intro pr hpr hpri
    exact hno pr.2 (by rw [← hpri]; exact hpr)
  · intro i hi ⟨j, hj⟩
    exact scatter_matched_nonneg _ _ _ hi ⟨(i, j), hj, rfl⟩

/-- Witness for c3_kdtree_cheby, exercising both dense branches: the
exactly-one case, and the weaker-heuristic case in which a point with no
matched cell is silently handed the raw J entry of another point. -/
theorem c3_kdtree_cheby_witness :
    (0 < 2) ∧
    kdtree_cell_index_cheby [[0], [10]] [0, 0] (fun _ => 1) [[0], [10]]
      = some (.denseJ [0, 1]) ∧
    kdtree_cell_index_cheby [[0], [0]] [0, 5] (fun l => if l = 1 then 1 else 3)
        [[0], [10], [2]]
      = some (.denseJ [0, 1, 1]) := by
  refine ⟨by decide, ?_, ?_⟩
  · have hm0 : match_row [[0], [10]] [0, 0] (fun _ => 1) ([(0 : ℚ)]) = [0] := by
      unfold match_row chebyshev
      norm_num [List.range_succ]
    have hm1 : match_row [[0], [10]] [0, 0] (fun _ => 1) ([(10 : ℚ)]) = [1] := by
      unfold match_row chebyshev
      norm_num [List.range_succ]
    have h := ((c3_kdtree_cheby [[0], [10]] [0, 0] (fun _ => 1) [[0], [10]]).2.2.1
      (by decide) ?_).2
    · rw [h]
      show some (ChebyResult.denseJ
          ([0, 1].map (fun i => (match_row [[0], [10]] [0, 0] (fun _ => 1)
            ([[(0 : ℚ)], [10]].getD i [])).headD 0))) = _
      rw [List.map_cons, List.map_cons, List.map_nil]
      show some (ChebyResult.denseJ
          [(match_row [[0], [10]] [0, 0] (fun _ => 1) [(0 : ℚ)]).headD 0,
            (match_row [[0], [10]] [0, 0] (fun _ => 1) [(10 : ℚ)]).headD 0]) = _
      rw [hm0, hm1]
      rfl
    · intro i hi
      have hi2 : i < 2 := hi
      interval_cases i
      · rw [show ([[(0 : ℚ)], [10]].getD 0 []) = [(0 : ℚ)] from rfl, hm0]
        rfl
      · rw [show ([[(0 : ℚ)], [10]].getD 1 []) = [(10 : ℚ)] from rfl, hm1]
        rfl
  · have hw : within_pairs [[0], [0]] [0, 5] (fun l => if l = 1 then 1 else 3)
        [[(0 : ℚ)], [10], [2]] = [(0, 0), (0, 1), (2, 1)] := by
      unfold within_pairs match_row chebyshev
      norm_num [List.range_succ]
    have hheur : dense_heuristic 3 ((within_pairs [[0], [0]] [0, 5]
        (fun l => if l = 1 then 1 else 3) [[(0 : ℚ)], [10], [2]]).map Prod.fst)
          = true := by
      rw [hw]
      decide
    have h := (c3_kdtree_cheby [[0], [0]] [0, 5] (fun l => if l = 1 then 1 else 3)
      [[0], [10], [2]]).2.1 hheur
    rw [h, hw]
    rfl

/-- Claim C4, the claim as stated is false: converting a dense array
containing the -1 sentinel to the pair encoding does not drop the
unassigned point; the pair keeps one entry per point and pairs point 0
with the sentinel cell index -1. -/
theorem c4_counterexample :
    format_cell_index (.array [-1, 0]) .pair (fun _ _ => 0) (2, 2)
      = .ok (.pair [0, 1] [-1, 0]) ∧
    ((0 : ℕ), (-1 : ℤ)) ∈ List.zip [0, 1] ([-1, 0] : List ℤ) := by
  exact ⟨rfl, by decide⟩

/-- Claim C4, amended.  A point that maps to zero cells is represented by
the -1 sentinel in the dense-array encoding (the chebyshev fallback writes
-1 exactly at unmatched points); format_cell_index converts an array to the
pair encoding as (arange(n), K), retaining one entry per point with the
sentinel kept as a cell index of -1 rather than omitting unassigned points;
and converting a sentinel-bearing array to the matrix encoding fails on the
negative index instead of dropping the points. -/
theorem c4_sentinel_handling (K : List ℤ) (sel : ℕ → List ℤ → ℤ) (m : ℕ) :
    (format_cell_index (.array K) .pair sel (K.length, m)
        = .ok (.pair (List.range K.length) K)) ∧
    ((-1 : ℤ) ∈ K →
      format_cell_index (.array K) .matrix sel (K.length, m)
        = .error "negative or out of bounds index") ∧
    (∀ (centers : List (List ℚ)) (levels : List ℕ) (refLen : ℕ → ℚ)
        (points : List (List ℚ)) (i : ℕ), i < points.length →
      (∀ j, (i, j) ∉ within_pairs centers levels refLen points) →
      (scatter_last_wins points.length
          (within_pairs centers levels refLen points)).getD i 0 = -1) := by
  refine ⟨rfl, ?_, ?_⟩
  · intro hmem
    have herr : pair_to_matrix (List.range K.length) K (K.length, m)
        = .error "negative or out of bounds index" := by
      unfold pair_to_matrix
      rw [if_neg]
      rintro ⟨-, hall⟩
      have h2 := List.all_eq_true.1 hall (-1) hmem
      simp at h2
    have hred : format_cell_index (.array K) .matrix sel (K.length, m)
        = match pair_to_matrix (List.range K.length) K (K.length, m) with
          | .error msg => .error msg
          | .ok k => .ok k := rfl
    rw [hred, herr]
  · intro centers levels refLen points i hi hno
    apply scatter_unmatched _ _ _ hi
    intro pr hpr hpri
    exact hno pr.2 (by rw [← hpri]; exact hpr)

/-- Witness for c4_sentinel_handling. -/
theorem c4_sentinel_handling_witness :
    ((-1 : ℤ) ∈ ([-1, 0] : List ℤ)) ∧
    format_cell_index (.array [-1, 0]) .matrix (fun _ _ => 0) (2, 2)
      = .error "negative or out of bounds index" :=
  ⟨by decide, (c4_sentinel_handling [-1, 0] (fun _ _ => 0) 2).2.1 (by decide)⟩

/-! ### Claim C6 support: the point adjacency edge list -/

theorem dot_comm (x : List ℚ) : ∀ y, dot x y = dot y x := by
  induction x with
  | nil => intro y; cases y <;> rfl
  | cons a x ih =>
      intro y
      cases y with
      | nil => rfl
      | cons b y =>
          simp only [dot, List.zip_cons_cons, List.map_cons, List.sum_cons]
          have h := ih y
          simp only [dot] at h
          rw [h, mul_comm]

theorem d2_entry_comm (x y : List ℚ) : d2_entry x y = d2_entry y x := by
  unfold d2_entry
  rw [dot_comm]
  ring

theorem d2_entry_eq_sq_dist (x : List ℚ) :
    ∀ y : List ℚ, x.length = y.length → d2_entry x y = sq_dist x y := by
  induction x with
  | nil =>
      intro y hy
      cases y with
      | nil => simp [d2_entry, sq_dist, sum_sq, dot]
      | cons b y => simp at hy
  | cons a x ih =>
      intro y hy
      cases y with
      | nil => simp at hy
      | cons b y =>
          have h := ih y (by simpa using hy)
          simp only [d2_entry, sq_dist, sum_sq, dot, List.zip_cons_cons, List.map_cons,
            List.sum_cons] at h ⊢
          linear_combination h

theorem cell_points_mem (K : List ℤ) (c p : ℕ) :
    p ∈ cell_points K c ↔ p < K.length ∧ K.getD p (-1) = Int.ofNat c := by
  simp [cell_points, List.mem_filter, List.mem_range]

theorem cell_points_nodup (K : List ℤ) (c : ℕ) : (cell_points K c).Nodup :=
  (List.nodup_range _).filter _

theorem cell_points_eq_cell {K : List ℤ} {c p : ℕ} (h : p ∈ cell_points K c)
    {c2 : ℕ} (h2 : K.getD p (-1) = Int.ofNat c2) : c = c2 := by
  rw [cell_points_mem] at h
  have h3 := h.2.symm.trans h2
  exact Int.ofNat.inj h3

theorem list_sum_eq_single (l : List α) (g : α → ℕ) (x : α) (hx : x ∈ l)
    (hnd : l.Nodup) (h0 : ∀ y ∈ l, y ≠ x → g y = 0) : (l.map g).sum = g x := by
  induction l with
  | nil => cases hx
  | cons a l ih =>
      rw [List.map_cons, List.sum_cons]
      rcases List.mem_cons.1 hx with rfl | hmem
      · have hz : (l.map g).sum = 0 := by
          apply List.sum_eq_zero
          intro v hv
          rcases List.mem_map.1 hv with ⟨y, hy, rfl⟩
          exact h0 y (List.mem_cons_of_mem _ hy)
            (fun hyx => (List.nodup_cons.1 hnd).1 (hyx ▸ hy))
        rw [hz, add_zero]
      · have hax : a ≠ x := by
          intro hax
          exact (List.nodup_cons.1 hnd).1 (hax ▸ hmem)
        rw [h0 a (List.mem_cons_self a l) hax, zero_add]
        exact ih hmem (List.nodup_cons.1 hnd).2
          (fun y hy => h0 y (List.mem_cons_of_mem _ hy))

theorem countP_flatMap_single (pred : β → Bool) (l : List α) (f : α → List β)
    (x : α) (hx : x ∈ l) (hnd : l.Nodup)
    (hz : ∀ y ∈ l, y ≠ x → (f y).countP pred = 0) :
    (l.flatMap f).countP pred = (f x).countP pred := by
  rw [List.countP_flatMap]
  exact list_sum_eq_single l (List.countP pred ∘ f) x hx hnd hz

theorem mem_pairlist {X : List (List ℚ)} {symetric : Bool} {p' q' : ℕ}
    {e : ℕ × ℕ × ℚ}
    (he : e ∈ (p', q', d2_entry (X.getD p' []) (X.getD q' [])) ::
      (if symetric then [(q', p', d2_entry (X.getD p' []) (X.getD q' []))] else [])) :
    e = (p', q', d2_entry (X.getD p' []) (X.getD q' []))
      ∨ (symetric = true ∧ e = (q', p', d2_entry (X.getD p' []) (X.getD q' []))) := by
  rcases List.mem_cons.1 he with rfl | he2
  · exact Or.inl rfl
  · cases hs : symetric
    · rw [hs] at he2
      simp at he2
    · rw [hs] at he2
      simp only [if_true, List.mem_singleton] at he2
      exact Or.inr ⟨rfl, he2⟩

theorem mem_block {X : List (List ℚ)} {K : List ℤ} {symetric : Bool} {i j : ℕ}
    {e : ℕ × ℕ × ℚ}
    (he : e ∈ (cell_points K i).flatMap (fun p' =>
      (cell_points K j).flatMap (fun q' =>
        (p', q', d2_entry (X.getD p' []) (X.getD q' [])) ::
          (if symetric then [(q', p', d2_entry (X.getD p' []) (X.getD q' []))]
            else [])))) :
    ∃ p' q', p' ∈ cell_points K i ∧ q' ∈ cell_points K j ∧
      (e = (p', q', d2_entry (X.getD p' []) (X.getD q' []))
        ∨ (symetric = true ∧ e = (q', p', d2_entry (X.getD p' []) (X.getD q' [])))) := by
  rcases List.mem_flatMap.1 he with ⟨p', hp', he2⟩
  rcases List.mem_flatMap.1 he2 with ⟨q', hq', he3⟩
  exact ⟨p', q', hp', hq', mem_pairlist he3⟩

theorem point_adjacency_mem {X : List (List ℚ)} {K : List ℤ} {A : ℕ → ℕ → Bool}
    {ncells : ℕ} {symetric : Bool} {e : ℕ × ℕ × ℚ}
    (he : e ∈ point_adjacency_edges X K A ncells symetric) :
    ∃ i j, i < j ∧ j < ncells ∧ A i j = true ∧
      ∃ p' q', p' ∈ cell_points K i ∧ q' ∈ cell_points K j ∧
        (e = (p', q', d2_entry (X.getD p' []) (X.getD q' []))
          ∨ (symetric = true ∧ e = (q', p', d2_entry (X.getD p' []) (X.getD q' [])))) := by
  unfold point_adjacency_edges at he
  rcases List.mem_flatMap.1 he with ⟨i, hi, he2⟩
  rcases List.mem_flatMap.1 he2 with ⟨j, hj, he3⟩
  rw [List.mem_filter] at hj
  obtain ⟨hjr, hcond⟩ := hj
  rw [List.mem_range] at hjr
  rw [Bool.and_eq_true] at hcond
  obtain ⟨hAij, hij⟩ := hcond
  exact ⟨i, j, of_decide_eq_true hij, hjr, hAij, mem_block he3⟩

theorem point_adjacency_count_forward (X : List (List ℚ)) (K : List ℤ)
    (A : ℕ → ℕ → Bool) (ncells : ℕ) (symetric : Bool) (p q i0 j0 : ℕ)
    (hp : p < K.length) (hq : q < K.length)
    (hKp : K.getD p (-1) = Int.ofNat i0) (hKq : K.getD q (-1) = Int.ofNat j0)
    (hij : i0 < j0) (hjn : j0 < ncells) (hA : A i0 j0 = true) :
    (point_adjacency_edges X K A ncells symetric).countP
      (fun e => e.1 = p ∧ e.2.1 = q) = 1 := by
  have hpq : p ≠ q := by
    intro hpq
    rw [hpq] at hKp
    have h2 := Int.ofNat.inj (hKp.symm.trans hKq)
    omega
  unfold point_adjacency_edges
  rw [countP_flatMap_single _ _ _ i0 (List.mem_range.2 (by omega))
    (List.nodup_range _) ?zrow]
  case zrow =>
    intro y _ hyne
    rw [List.countP_eq_zero]
    intro e he
    rcases List.mem_flatMap.1 he with ⟨j, hj, he2⟩
    rw [List.mem_filter, Bool.and_eq_true] at hj
    rcases mem_block he2 with ⟨p', q', hp', hq', rfl | ⟨-, rfl⟩⟩
    · simp only [decide_eq_true_eq]
      rintro ⟨rfl, rfl⟩
      exact hyne (cell_points_eq_cell hp' hKp)
    · simp only [decide_eq_true_eq]
      rintro ⟨rfl, rfl⟩
      have hji : j = i0 := cell_points_eq_cell hq' hKp
      have hyj : y = j0 := cell_points_eq_cell hp' hKq
      have hlt := of_decide_eq_true hj.2.2
      omega
  rw [countP_flatMap_single _ _ _ j0
    (List.mem_filter.2 ⟨List.mem_range.2 hjn, by rw [hA]; simp [hij]⟩)
    (List.Nodup.filter _ (List.nodup_range _)) ?zcol]
  case zcol =>
    intro j hj hjne
    rw [List.mem_filter, Bool.and_eq_true] at hj
    rw [List.countP_eq_zero]
    intro e he
    rcases mem_block he with ⟨p', q', hp', hq', rfl | ⟨-, rfl⟩⟩
    · simp only [decide_eq_true_eq]
      rintro ⟨rfl, rfl⟩
      exact hjne (cell_points_eq_cell hq' hKq)
    · simp only [decide_eq_true_eq]
      rintro ⟨rfl, rfl⟩
      have hji : j = i0 := cell_points_eq_cell hq' hKp
      have hlt := of_decide_eq_true hj.2.2
      omega
  rw [countP_flatMap_single _ _ _ p ((cell_points_mem K i0 p).2 ⟨hp, hKp⟩)
    (cell_points_nodup K i0) ?zp]
  case zp =>
    intro p2 _ hp2ne
    rw [List.countP_eq_zero]
    intro e he
    rcases List.mem_flatMap.1 he with ⟨q', hq', he2⟩
    rcases mem_pairlist he2 with rfl | ⟨-, rfl⟩
    · simp only [decide_eq_true_eq]
      rintro ⟨rfl, -⟩
      exact hp2ne rfl
    · simp only [decide_eq_true_eq]
      rintro ⟨rfl, rfl⟩
      have hji : j0 = i0 := cell_points_eq_cell hq' hKp
      omega
  rw [countP_flatMap_single _ _ _ q ((cell_points_mem K j0 q).2 ⟨hq, hKq⟩)
    (cell_points_nodup K j0) ?zq]
  case zq =>
    intro q2 hq2 hq2ne
    rw [List.countP_eq_zero]
    intro e he
    rcases mem_pairlist he with rfl | ⟨-, rfl⟩
    · simp only [decide_eq_true_eq]
      rintro ⟨-, rfl⟩
      exact hq2ne rfl
    · simp only [decide_eq_true_eq]
      rintro ⟨rfl, -⟩
      have hji : j0 = i0 := cell_points_eq_cell hq2 hKp
      omega
  cases hs : symetric
  · simp [List.countP_cons]
  · simp [List.countP_cons, Ne.symm hpq]

theorem point_adjacency_count_reverse (X : List (List ℚ)) (K : List ℤ)
    (A : ℕ → ℕ → Bool) (ncells : ℕ) (symetric : Bool) (p q i0 j0 : ℕ)
    (hp : p < K.length) (hq : q < K.length)
    (hKp : K.getD p (-1) = Int.ofNat i0) (hKq : K.getD q (-1) = Int.ofNat j0)
    (hij : i0 < j0) (hjn : j0 < ncells) (hA : A i0 j0 = true) :
    (point_adjacency_edges X K A ncells symetric).countP
      (fun e => e.1 = q ∧ e.2.1 = p) = (if symetric then 1 else 0) := by
  have hpq : p ≠ q := by
    intro hpq
    rw [hpq] at hKp
    have h2 := Int.ofNat.inj (hKp.symm.trans hKq)
    omega
  unfold point_adjacency_edges
  rw [countP_flatMap_single _ _ _ i0 (List.mem_range.2 (by omega))
    (List.nodup_range _) ?zrow]
  case zrow =>
    intro y _ hyne
    rw [List.countP_eq_zero]
    intro e he
    rcases List.mem_flatMap.1 he with ⟨j, hj, he2⟩
    rw [List.mem_filter, Bool.and_eq_true] at hj
    rcases mem_block he2 with ⟨p', q', hp', hq', rfl | ⟨-, rfl⟩⟩
    · simp only [decide_eq_true_eq]
      rintro ⟨h1, h2⟩
      rw [h1] at hp'
      rw [h2] at hq'
      have hyj : y = j0 := cell_points_eq_cell hp' hKq
      have hji : j = i0 := cell_points_eq_cell hq' hKp
      have hlt := of_decide_eq_true hj.2.2
      omega
    · simp only [decide_eq_true_eq]
      rintro ⟨h1, h2⟩
      rw [h2] at hp'
      exact hyne (cell_points_eq_cell hp' hKp)
  rw [countP_flatMap_single _ _ _ j0
    (List.mem_filter.2 ⟨List.mem_range.2 hjn, by rw [hA]; simp [hij]⟩)
    (List.Nodup.filter _ (List.nodup_range _)) ?zcol]
  case zcol =>
    intro j hj hjne
    rw [List.mem_filter, Bool.and_eq_true] at hj
    rw [List.countP_eq_zero]
    intro e he
    rcases mem_block he with ⟨p', q', hp', hq', rfl | ⟨-, rfl⟩⟩
    · simp only [decide_eq_true_eq]
      rintro ⟨h1, h2⟩
      rw [h1] at hp'
      have hji : i0 = j0 := cell_points_eq_cell hp' hKq
      omega
    · simp only [decide_eq_true_eq]
      rintro ⟨h1, h2⟩
      rw [h1] at hq'
      exact hjne (cell_points_eq_cell hq' hKq)
  rw [countP_flatMap_single _ _ _ p ((cell_points_mem K i0 p).2 ⟨hp, hKp⟩)
    (cell_points_nodup K i0) ?zp]
  case zp =>
    intro p2 hp2 hp2ne
    rw [List.countP_eq_zero]
    intro e he
    rcases List.mem_flatMap.1 he with ⟨q', hq', he2⟩
    rcases mem_pairlist he2 with rfl | ⟨-, rfl⟩
    · simp only [decide_eq_true_eq]
      rintro ⟨h1, h2⟩
      rw [h1] at hp2
      have hji : i0 = j0 := cell_points_eq_cell hp2 hKq
      omega
    · simp only [decide_eq_true_eq]
      rintro ⟨-, h2⟩
      exact hp2ne h2
  rw [countP_flatMap_single _ _ _ q ((cell_points_mem K j0 q).2 ⟨hq, hKq⟩)
    (cell_points_nodup K j0) ?zq]
  case zq =>
    intro q2 hq2 hq2ne
    rw [List.countP_eq_zero]
    intro e he
    rcases mem_pairlist he with rfl | ⟨-, rfl⟩
    · simp only [decide_eq_true_eq]
      rintro ⟨h1, -⟩
      exact hpq h1
    · simp only [decide_eq_true_eq]
      rintro ⟨h1, -⟩
      exact hq2ne h1
  cases hs : symetric
  · simp [List.countP_cons, hpq]
  · simp [List.countP_cons, hpq]

/-- Claim C6.  On a dense-array partition, for any two adjacent distinct
cells i0 < j0 (the source scans the upper triangle of each adjacency row),
any point p of cell i0 and any point q of cell j0, the derivation yields
exactly one edge from p to q, and exactly one reversed edge when symetric
is true (none otherwise); every emitted edge carries the squared euclidean
distance between the two point coordinates (the source applies one final
square root to all entries, so the emitted weight is the euclidean
distance); every edge joins points of two distinct cells, so no edge ever
joins two points of the same cell; and partitions in the pair or matrix
encoding are rejected with an error. -/
theorem c6_point_adjacency (X : List (List ℚ)) (K : List ℤ) (A : ℕ → ℕ → Bool)
    (ncells : ℕ) (symetric : Bool) (p q i0 j0 : ℕ)
    (hp : p < K.length) (hq : q < K.length)
    (hKp : K.getD p (-1) = Int.ofNat i0) (hKq : K.getD q (-1) = Int.ofNat j0)
    (hij : i0 < j0) (hjn : j0 < ncells) (hA : A i0 j0 = true) :
    ((point_adjacency_edges X K A ncells symetric).countP
        (fun e => e.1 = p ∧ e.2.1 = q) = 1 ∧
      (point_adjacency_edges X K A ncells symetric).countP
        (fun e => e.1 = q ∧ e.2.1 = p) = (if symetric then 1 else 0)) ∧
    (∀ e ∈ point_adjacency_edges X K A ncells symetric,
      e.2.2 = d2_entry (X.getD e.1 []) (X.getD e.2.1 []) ∧
      ((X.getD e.1 []).length = (X.getD e.2.1 []).length →
        e.2.2 = sq_dist (X.getD e.1 []) (X.getD e.2.1 []) ∧
        Real.sqrt ((e.2.2 : ℚ) : ℝ)
          = Real.sqrt ((sq_dist (X.getD e.1 []) (X.getD e.2.1 []) : ℚ) : ℝ)) ∧
      K.getD e.1 (-1) ≠ K.getD e.2.1 (-1)) ∧
    (∀ (pts : List ℕ) (cls : List ℤ) (entries : List (ℕ × ℕ)) (shape : ℕ × ℕ),
      point_adjacency_matrix X (.pair pts cls) A ncells symetric
          = .error "cell overlap support has not been implemented here" ∧
      point_adjacency_matrix X (.matrix entries shape) A ncells symetric
          = .error "cell overlap support has not been implemented here") := by
  refine ⟨⟨point_adjacency_count_forward X K A ncells symetric p q i0 j0
      hp hq hKp hKq hij hjn hA,
    point_adjacency_count_reverse X K A ncells symetric p q i0 j0
      hp hq hKp hKq hij hjn hA⟩, ?_, fun pts cls entries shape => ⟨rfl, rfl⟩⟩
  intro e he
  rcases point_adjacency_mem he with ⟨i, j, hij2, hjn2, hA2, p', q', hp', hq', hcase⟩
  have hijne : i ≠ j := Nat.ne_of_lt hij2
  rcases hcase with rfl | ⟨-, rfl⟩
  · refine ⟨rfl, fun hlen => ?_, ?_⟩
    · have hd := d2_entry_eq_sq_dist (X.getD p' []) (X.getD q' []) hlen
      exact ⟨hd, by rw [hd]⟩
    · rw [((cell_points_mem K i p').1 hp').2, ((cell_points_mem K j q').1 hq').2]
      intro hc
      exact hijne (Int.ofNat.inj hc)
  · refine ⟨d2_entry_comm _ _, fun hlen => ?_, ?_⟩
    · have hd := (d2_entry_comm (X.getD p' []) (X.getD q' [])).trans
        (d2_entry_eq_sq_dist (X.getD q' []) (X.getD p' []) hlen)
      exact ⟨hd, by rw [hd]⟩
    · rw [((cell_points_mem K j q').1 hq').2, ((cell_points_mem K i p').1 hp').2]
      intro hc
      exact hijne (Int.ofNat.inj hc.symm)

/-- Witness for c6_point_adjacency. -/
theorem c6_point_adjacency_witness :
    (List.getD [0, 0, 1] 0 (-1) = Int.ofNat 0 ∧
      List.getD [0, 0, 1] 2 (-1) = Int.ofNat 1 ∧ (0 : ℕ) < 1 ∧ 1 < 2) ∧
    (point_adjacency_edges [[0], [1], [5]] [0, 0, 1]
        (fun i j => decide (i ≠ j)) 2 true).countP
      (fun e => e.1 = 0 ∧ e.2.1 = 2) = 1 :=
  ⟨⟨by decide, by decide, by decide, by decide⟩,
    (c6_point_adjacency [[0], [1], [5]] [0, 0, 1] (fun i j => decide (i ≠ j)) 2 true
      0 2 0 1 (by decide) (by decide) (by decide) (by decide) (by decide) (by decide)
      (by decide)).1.1⟩

end TramwaySpec
